import Mathlib

/-
Verification of the CMake-variable path resolver specified for the
cmake-companion repository.  The repository ships only C/C++ fixture files;
the resolver core (variable environment, token scanner, substituter and
normalizer, reference collector) is described by the specification as an
implied library.  The resolver definitions below are therefore modelled
from the specification text; the fixture constants at the end are embedded
from the repository sources.
-/

namespace CMakeResolver

/-- Resolution status of a collected reference.  Modelled from the spec:
`status ∈ {Resolved, UnresolvedVariable(name), MalformedPlaceholder, NotAPath}`. -/
inductive Status where
  | Resolved : Status
  | UnresolvedVariable : String → Status
  | MalformedPlaceholder : Status
  | NotAPath : Status
deriving DecidableEq

/-- One `${NAME}` occurrence inside a source buffer, with byte offsets.
Modelled from the spec data model (`Placeholder`). -/
structure Placeholder where
  name : String
  startOff : Nat
  endOff : Nat
deriving DecidableEq

/-- An emission of the lexical pass: a well-formed placeholder or a
malformed-placeholder record with its partial span. -/
inductive Item where
  | ph : Placeholder → Item
  | bad : Nat → Nat → Item
deriving DecidableEq

def itStart : Item → Nat
  | .ph p => p.startOff
  | .bad s _ => s

def itEnd : Item → Nat
  | .ph p => p.endOff
  | .bad _ e => e

/-- First character of a CMake variable identifier: `[A-Za-z_]`. -/
def isIdentStart (c : Char) : Bool := c.isAlpha || c = '_'

/-- Continuation character of an identifier: `[A-Za-z0-9_]`. -/
def isIdentCont (c : Char) : Bool := c.isAlpha || c.isDigit || c = '_'

/-- Length of the longest run of identifier-continuation characters. -/
def contLen : List Char → Nat
  | [] => 0
  | c :: rest => if isIdentCont c then contLen rest + 1 else 0

/-- Length of the longest identifier at the head of the list (0 if none). -/
def identLen : List Char → Nat
  | [] => 0
  | c :: rest => if isIdentStart c then contLen rest + 1 else 0

/-- The placeholder pass of the Token Scanner, modelled from the spec:
walk bytes left to right; at `${` parse an identifier and a closing brace,
emitting a well-formed placeholder, otherwise record a malformed
placeholder over the partial span and resume after the `$`.  `fuel`
decreases on each step so the recursion is structural; `scanP` supplies
enough fuel for the whole buffer. -/
def scanGo : Nat → Nat → List Char → List Item
  | 0, _, _ => []
  | _ + 1, _, [] => []
  | _ + 1, _, [_] => []
  | fuel + 1, i, c :: d :: rest =>
    if c = '$' ∧ d = '\x7b' then
      if 0 < identLen rest ∧ rest[identLen rest]? = some '\x7d' then
        Item.ph ⟨⟨rest.take (identLen rest)⟩, i, i + identLen rest + 3⟩ ::
          scanGo fuel (i + identLen rest + 3) (rest.drop (identLen rest + 1))
      else
        Item.bad i (i + identLen rest + 2) :: scanGo fuel (i + 1) (d :: rest)
    else scanGo fuel (i + 1) (d :: rest)

/-- All placeholder emissions of a buffer. -/
def scanP (buf : List Char) : List Item := scanGo (buf.length + 1) 0 buf

def phsOf : List Item → List Placeholder :=
  List.filterMap fun it =>
    match it with
    | .ph p => some p
    | .bad _ _ => none

def badsOf : List Item → List (Nat × Nat) :=
  List.filterMap fun it =>
    match it with
    | .ph _ => none
    | .bad s e => some (s, e)

/-- A path-run byte, modelled from the spec: ASCII letter, digit, `_`, `-`,
`.`, `/`, `\`, `:`, `+`.  (Placeholders are handled at the interval level.) -/
def isPathRun (c : Char) : Bool :=
  c.isAlpha || c.isDigit || c = '_' || c = '-' || c = '.' || c = '/' ||
    c = '\\' || c = ':' || c = '+'

/-- Extend a position leftward over path-run bytes. -/
def extLeft (buf : List Char) : Nat → Nat
  | 0 => 0
  | a + 1 =>
    match buf[a]? with
    | some c => if isPathRun c then extLeft buf a else a + 1
    | none => a + 1

/-- Length of the longest path-run at the head of the list. -/
def runLen : List Char → Nat
  | [] => 0
  | c :: rest => if isPathRun c then runLen rest + 1 else 0

/-- Extend a position rightward over path-run bytes. -/
def extRight (buf : List Char) (b : Nat) : Nat := b + runLen (buf.drop b)

/-- A raw token: a contiguous candidate-path span with its placeholders. -/
structure Tok where
  startOff : Nat
  endOff : Nat
  phs : List Placeholder
deriving DecidableEq

/-- Group placeholders into raw tokens, modelled from the spec: each token
extends leftward and rightward over the maximal surrounding path-run, and
adjacent placeholders separated only by path-run bytes merge into one
token. -/
def buildToks (buf : List Char) : List Placeholder → List Tok
  | [] => []
  | p :: rest =>
    match buildToks buf rest with
    | [] => [⟨extLeft buf p.startOff, extRight buf p.endOff, [p]⟩]
    | t :: ts =>
      if t.startOff ≤ extRight buf p.endOff then
        ⟨extLeft buf p.startOff, t.endOff, p :: t.phs⟩ :: ts
      else
        ⟨extLeft buf p.startOff, extRight buf p.endOff, [p]⟩ :: t :: ts

/-- Variable environment: name-to-value bindings, case-sensitive lookup. -/
abbrev Env := List (String × String)

def lookupEnv : Env → String → Option String
  | [], _ => none
  | (n, v) :: rest, m => if n = m then some v else lookupEnv rest m

/-- The bytes of `l` in the half-open interval `[a, b)`. -/
def slice (l : List Char) (a b : Nat) : List Char := (l.drop a).take (b - a)

/-- Single-pass substitution over a token's placeholders, modelled from the
spec: on a lookup miss the status becomes `UnresolvedVariable(name)` and
substitution halts for the token, leaving the remaining raw text verbatim. -/
def substFrom (env : Env) (buf : List Char) (tokEnd : Nat) :
    Nat → List Placeholder → List Char × Status
  | pos, [] => (slice buf pos tokEnd, Status.Resolved)
  | pos, p :: rest =>
    match lookupEnv env p.name with
    | some v =>
      let r := substFrom env buf tokEnd p.endOff rest
      (slice buf pos p.startOff ++ v.data ++ r.1, r.2)
    | none => (slice buf pos tokEnd, Status.UnresolvedVariable p.name)

/-- Expansion of an already-resolved prefix of placeholders (used to state
what the resolved text looks like when a later lookup misses). -/
def expandPre (env : Env) (buf : List Char) : Nat → List Placeholder → List Char
  | _, [] => []
  | pos, p :: rest =>
    slice buf pos p.startOff ++ ((lookupEnv env p.name).getD "").data ++
      expandPre env buf p.endOff rest

/-- Position just after the last placeholder of a list (or `pos` if none). -/
def preEnd : Nat → List Placeholder → Nat
  | pos, [] => pos
  | _, p :: rest => preEnd p.endOff rest

/-- Normalization step 1, modelled from the spec: replace backslashes with
forward slashes. -/
def slashify (l : List Char) : List Char := l.map fun c => if c = '\\' then '/' else c

/-- Split on `/`, dropping empty segments (this collapses runs of `/`). -/
def splitSegs : List Char → List (List Char)
  | [] => []
  | c :: rest =>
    if c = '/' then splitSegs rest
    else
      match splitSegs rest with
      | [] => [[c]]
      | s :: r => if rest.head? = some '/' then [c] :: s :: r else (c :: s) :: r

def dotSeg : List Char := ['.']

def dotDotSeg : List Char := ['.', '.']

/-- Resolve `.` and `..` segments textually, modelled from the spec: drop
`.`; pop the previous segment for `..` unless the path is relative and no
prior segment exists (then retain the `..`); on an absolute path a `..`
with no prior segment is dropped.  `acc` is the stack, topmost first. -/
def normSegs (ab : Bool) : List (List Char) → List (List Char) → List (List Char)
  | acc, [] => acc.reverse
  | acc, s :: rest =>
    if s = dotSeg then normSegs ab acc rest
    else if s = dotDotSeg then
      match acc with
      | [] => if ab then normSegs ab [] rest else normSegs ab [dotDotSeg] rest
      | _ :: acc2 => normSegs ab acc2 rest
    else normSegs ab (s :: acc) rest

/-- Join segments with single slashes. -/
def joinSegs : List (List Char) → List Char
  | [] => []
  | s :: rest =>
    match rest with
    | [] => s
    | _ :: _ => s ++ '/' :: joinSegs rest

/-- The preserved absolute prefix: a leading `//` is kept as-is, any other
leading run of slashes contributes a single `/`. -/
def absPre (l : List Char) : List Char :=
  if l[0]? = some '/' then
    if l[1]? = some '/' then
      if l[2]? = some '/' then ['/'] else ['/', '/']
    else ['/']
  else []

/-- The path normalizer, modelled from the spec: replace backslashes,
collapse slash runs (keeping a leading `//`), and resolve `.`/`..`
segments textually. -/
def normalize (l : List Char) : List Char :=
  let s1 := slashify l
  let p := absPre s1
  p ++ joinSegs (normSegs (!p.isEmpty) [] (splitSegs s1))

/-- Non-path rejection test, modelled from the spec: a substituted result
with no `/`, no `\` and no `.` is not a path. -/
def isPathy (s : List Char) : Bool := s.any fun c => c = '/' || c = '\\' || c = '.'

/-- Classification, modelled from the spec: absolute iff the path begins
with `/` or matches a drive-letter prefix `[A-Za-z]:[/\]`. -/
def isAbsolute (l : List Char) : Bool :=
  match l with
  | '/' :: _ => true
  | a :: ':' :: c :: _ => a.isAlpha && (c = '/' || c = '\\')
  | _ => false

/-- A span-annotated reference produced by the collector.  The buffer id
records which input buffer the span refers to. -/
structure Reference where
  bufId : Nat
  spanStart : Nat
  spanEnd : Nat
  raw : List Char
  resolved : List Char
  status : Status
deriving DecidableEq

/-- Turn a raw token into a reference: substitute, then on full success
either reject as `NotAPath` or normalize and mark `Resolved`. -/
def mkRef (env : Env) (bid : Nat) (buf : List Char) (t : Tok) : Reference :=
  match substFrom env buf t.endOff t.startOff t.phs with
  | (s, Status.Resolved) =>
    if isPathy s then
      ⟨bid, t.startOff, t.endOff, slice buf t.startOff t.endOff, normalize s, Status.Resolved⟩
    else
      ⟨bid, t.startOff, t.endOff, slice buf t.startOff t.endOff, s, Status.NotAPath⟩
  | (s, Status.UnresolvedVariable n) =>
    ⟨bid, t.startOff, t.endOff, slice buf t.startOff t.endOff, s, Status.UnresolvedVariable n⟩
  | (s, Status.MalformedPlaceholder) =>
    ⟨bid, t.startOff, t.endOff, slice buf t.startOff t.endOff, s, Status.MalformedPlaceholder⟩
  | (s, Status.NotAPath) =>
    ⟨bid, t.startOff, t.endOff, slice buf t.startOff t.endOff, s, Status.NotAPath⟩

/-- Reference for a malformed-placeholder record. -/
def badRef (bid : Nat) (buf : List Char) (s e : Nat) : Reference :=
  ⟨bid, s, e, slice buf s e, slice buf s e, .MalformedPlaceholder⟩

/-- Scan one buffer and produce its references: token references (with
`NotAPath` filtered out) followed by malformed-placeholder records. -/
def collectBuf (env : Env) (bid : Nat) (buf : List Char) : List Reference :=
  ((buildToks buf (phsOf (scanP buf))).map (mkRef env bid buf)).filter
      (fun r => decide (r.status ≠ Status.NotAPath)) ++
    (badsOf (scanP buf)).map (fun se => badRef bid buf se.1 se.2)

/-- References of all buffers, tagged with consecutive buffer ids. -/
def collectAux (env : Env) : Nat → List (List Char) → List Reference
  | _, [] => []
  | bid, b :: rest => collectBuf env bid b ++ collectAux env (bid + 1) rest

def refKey (r : Reference) : Nat × Nat × Nat := (r.bufId, r.spanStart, r.spanEnd)

def keyLeB (a b : Reference) : Bool :=
  decide (a.bufId < b.bufId) ||
    (decide (a.bufId = b.bufId) &&
      (decide (a.spanStart < b.spanStart) ||
        (decide (a.spanStart = b.spanStart) && decide (a.spanEnd ≤ b.spanEnd))))

def keyLe (a b : Reference) : Prop := keyLeB a b = true

instance : DecidableRel keyLe := fun _ _ => inferInstanceAs (Decidable (_ = true))

instance : IsTotal Reference keyLe :=
  ⟨by intro a b; simp only [keyLe, keyLeB, Bool.or_eq_true, Bool.and_eq_true,
      decide_eq_true_eq]; omega⟩

instance : IsTrans Reference keyLe :=
  ⟨by intro a b c; simp only [keyLe, keyLeB, Bool.or_eq_true, Bool.and_eq_true,
      decide_eq_true_eq]; omega⟩

/-- Sort references ascending by `(buffer_id, span.start, span.end)`. -/
def sortRefs (l : List Reference) : List Reference := l.insertionSort keyLe

/-- Drop elements whose key repeats the previous kept key. -/
def dedupGo (prev : Reference) : List Reference → List Reference
  | [] => []
  | s :: rest => if refKey prev = refKey s then dedupGo prev rest else s :: dedupGo s rest

/-- Collapse references with identical `(buffer_id, source_span)`. -/
def dedupRefs : List Reference → List Reference
  | [] => []
  | r :: rest => r :: dedupGo r rest

/-- The Reference Collector, modelled from the spec: scan every buffer,
substitute, filter out `NotAPath`, merge, sort by `(buffer_id, span.start)`
and collapse identical `(buffer_id, source_span)` entries. -/
def collect (bufs : List (List Char)) (env : Env) : List Reference :=
  dedupRefs (sortRefs (collectAux env 0 bufs))

/-- `${` occurs somewhere in the list. -/
def hasDollarBrace : List Char → Bool
  | [] => false
  | c :: rest => (c = '$' && rest.head? = some '\x7b') || hasDollarBrace rest

/-- All bytes of `buf` in `[a, b)` exist and are path-run bytes. -/
def PR (buf : List Char) (a b : Nat) : Prop :=
  ∀ j, a ≤ j → j < b → ∃ c, buf[j]? = some c ∧ isPathRun c = true

/-- The inter-placeholder gaps of a token consist of path-run bytes. -/
def gapsOK (buf : List Char) : Nat → Nat → List Placeholder → Prop
  | pos, tokEnd, [] => PR buf pos tokEnd
  | pos, tokEnd, p :: rest => PR buf pos p.startOff ∧ gapsOK buf p.endOff tokEnd rest

/-- No environment value contains a `$` or a `{` character. -/
def EnvClean (env : Env) : Prop :=
  ∀ p ∈ env, ∀ c ∈ (p.2 : String).data, c ≠ '$' ∧ c ≠ '\x7b'

instance (env : Env) : Decidable (EnvClean env) := by
  unfold EnvClean
  exact inferInstance

/-- Strict ascending order on `(buffer_id, span.start)`. -/
def bufStartLt (a b : Reference) : Prop :=
  a.bufId < b.bufId ∨ (a.bufId = b.bufId ∧ a.spanStart < b.spanStart)

/-- Two references differ in `(buffer_id, span.start)`. -/
def bufStartNe (a b : Reference) : Prop :=
  ¬(a.bufId = b.bufId ∧ a.spanStart = b.spanStart)

end CMakeResolver

namespace Fixtures

open CMakeResolver

/-- Embedded from `src/example/src/utils.cpp`, `utils::getConfigPaths`:
the function body is a single `return` of a three-element initializer
list of string literals. -/
def getConfigPaths : List String :=
  ["${PROJECT_ROOT}/config.xml", "${SRC_DIR}/config.ini", "${BUILD_DIR}/generated/config.h"]

/-- Embedded from `src/example/src/config.c`, `get_project_root`: the
function body is `return "${PROJECT_ROOT}";`. -/
def get_project_root : String := "${PROJECT_ROOT}"

/-- Scenario 1 buffer: `"${PROJECT_ROOT}/config.txt\n"`. -/
def bufC1 : List Char := "${PROJECT_ROOT}/config.txt\n".data

def envC1 : Env := [("PROJECT_ROOT", "/home/u/proj")]

def refC1 : Reference :=
  ⟨0, 0, 26, "${PROJECT_ROOT}/config.txt".data, "/home/u/proj/config.txt".data, .Resolved⟩

/-- Scenario 3 buffer: `"${BUILD_DIR}/bin/output"`. -/
def bufC4 : List Char := "${BUILD_DIR}/bin/output".data

def tokC4 : Tok := ⟨0, 23, [⟨"BUILD_DIR", 0, 12⟩]⟩

def refC4 : Reference :=
  ⟨0, 0, 23, bufC4, bufC4, .UnresolvedVariable "BUILD_DIR"⟩

/-- Scenario 6 buffer: `"${BAD"` (missing closing brace). -/
def bufC5 : List Char := "$\x7bBAD".data

def refC5 : Reference := ⟨0, 0, 5, bufC5, bufC5, .MalformedPlaceholder⟩

/-- Scenario 4 buffer: `"${THIRD_PARTY}/boost/include/boost.hpp"`. -/
def bufC8 : List Char := "${THIRD_PARTY}/boost/include/boost.hpp".data

def envC8 : Env := [("THIRD_PARTY", "C:\\libs")]

def refC8 : Reference :=
  ⟨0, 0, 38, bufC8, "C:/libs/boost/include/boost.hpp".data, .Resolved⟩

/-- A small buffer with one resolvable placeholder, used for the duplicate
span counterexample across two identical buffers. -/
def bufDup : List Char := "${A}/x".data

def envDup : Env := [("A", "/r")]

/-- Environment whose value itself contains a placeholder, exercising the
single-pass (non-recursive) substitution contract. -/
def envLoop : Env := [("A", "${B}")]

end Fixtures

namespace CMakeResolver

/-! ### Normalizer lemmas -/

theorem mem_slashify {c : Char} {l : List Char} (h : c ∈ slashify l) : c = '/' ∨ c ∈ l := by
  simp only [slashify, List.mem_map] at h
  obtain ⟨a, ha, rfl⟩ := h
  by_cases hb : a = '\\' <;> simp [hb, ha]

theorem slashify_no_bs {c : Char} {l : List Char} (h : c ∈ slashify l) : c ≠ '\\' := by
  simp only [slashify, List.mem_map] at h
  obtain ⟨a, _, rfl⟩ := h
  by_cases hb : a = '\\' <;> simp [hb]

theorem slashify_eq_self {l : List Char} (h : ∀ c ∈ l, c ≠ '\\') : slashify l = l := by
  induction l with
  | nil => rfl
  | cons c rest ih =>
    have hc : c ≠ '\\' := h c (by simp)
    have hr := ih (fun a ha => h a (by simp [ha]))
    simp only [slashify, List.map_cons] at hr ⊢
    rw [if_neg hc, hr]

theorem splitSegs_slash (l : List Char) : splitSegs ('/' :: l) = splitSegs l := by
  simp [splitSegs]

theorem splitSegs_nonnil {l : List Char} : ∀ s ∈ splitSegs l, s ≠ [] := by
  induction l with
  | nil => simp [splitSegs]
  | cons c rest ih =>
    by_cases hc : c = '/'
    · subst hc; rw [splitSegs_slash]; exact ih
    · intro s h
      simp only [splitSegs, if_neg hc] at h
      cases hsp : splitSegs rest with
      | nil =>
        rw [hsp] at h; simp at h; simp [h]
      | cons s0 r =>
        rw [hsp] at h
        simp only at h
        by_cases hh : rest.head? = some '/'
        · rw [if_pos hh] at h
          rcases List.mem_cons.mp h with h1 | h1
          · simp [h1]
          · exact ih s (hsp ▸ h1)
        · rw [if_neg hh] at h
          rcases List.mem_cons.mp h with h1 | h1
          · simp [h1]
          · exact ih s (hsp ▸ List.mem_cons_of_mem _ h1)

theorem splitSegs_chars {l : List Char} : ∀ s ∈ splitSegs l, ∀ c ∈ s, c ≠ '/' ∧ c ∈ l := by
  induction l with
  | nil => simp [splitSegs]
  | cons c rest ih =>
    by_cases hc : c = '/'
    · subst hc; rw [splitSegs_slash]
      intro s h a ha
      obtain ⟨h1, h2⟩ := ih s h a ha
      exact ⟨h1, by simp [h2]⟩
    · intro s h
      simp only [splitSegs, if_neg hc] at h
      cases hsp : splitSegs rest with
      | nil =>
        rw [hsp] at h; simp at h
        intro a ha
        rw [h] at ha; simp at ha
        simp [ha, hc]
      | cons s0 r =>
        rw [hsp] at h
        simp only at h
        by_cases hh : rest.head? = some '/'
        · rw [if_pos hh] at h
          rcases List.mem_cons.mp h with h1 | h1
          · intro a ha
            rw [h1] at ha; simp at ha
            simp [ha, hc]
          · intro a ha
            obtain ⟨h1', h2⟩ := ih s (hsp ▸ h1) a ha
            exact ⟨h1', by simp [h2]⟩
        · rw [if_neg hh] at h
          rcases List.mem_cons.mp h with h1 | h1
          · intro a ha
            rw [h1] at ha
            rcases List.mem_cons.mp ha with h2 | h2
            · simp [h2, hc]
            · have := ih s0 (hsp ▸ List.mem_cons_self s0 r) a h2
              exact ⟨this.1, by simp [this.2]⟩
          · intro a ha
            have := ih s (hsp ▸ List.mem_cons_of_mem _ h1) a ha
            exact ⟨this.1, by simp [this.2]⟩

theorem splitSegs_cons_ne {c : Char} {rest : List Char} (hc : c ≠ '/') :
    splitSegs (c :: rest) =
      match splitSegs rest with
      | [] => [[c]]
      | s :: r => if rest.head? = some '/' then [c] :: s :: r else (c :: s) :: r := by
  simp [splitSegs, hc]

theorem splitSegs_single {s : List Char} (hne : s ≠ []) (hs : ∀ c ∈ s, c ≠ '/') :
    splitSegs s = [s] := by
  induction s with
  | nil => simp at hne
  | cons c rest ih =>
    have hc : c ≠ '/' := hs c (by simp)
    cases rest with
    | nil => simp [splitSegs, hc]
    | cons c1 r1 =>
      have h1 := ih (by simp) (fun a ha => hs a (by simp [ha]))
      have hc1 : c1 ≠ '/' := hs c1 (by simp)
      rw [splitSegs_cons_ne hc, h1]
      simp [hc1]

theorem splitSegs_append {s t : List Char} (hne : s ≠ []) (hs : ∀ c ∈ s, c ≠ '/') :
    splitSegs (s ++ '/' :: t) = s :: splitSegs t := by
  induction s with
  | nil => simp at hne
  | cons c rest ih =>
    have hc : c ≠ '/' := hs c (by simp)
    cases rest with
    | nil =>
      simp only [List.cons_append, List.nil_append]
      rw [splitSegs_cons_ne hc, splitSegs_slash]
      cases hsp : splitSegs t with
      | nil => simp
      | cons s0 r => simp
    | cons c1 r1 =>
      have hc1 : c1 ≠ '/' := hs c1 (by simp)
      have ih' := ih (by simp) (fun a ha => hs a (by simp [ha]))
      simp only [List.cons_append] at ih' ⊢
      rw [splitSegs_cons_ne hc, ih']
      simp [hc1]

theorem joinSegs_one (s : List Char) : joinSegs [s] = s := rfl

theorem joinSegs_cons_cons (s s1 : List Char) (r1 : List (List Char)) :
    joinSegs (s :: s1 :: r1) = s ++ '/' :: joinSegs (s1 :: r1) := rfl

theorem splitSegs_joinSegs {segs : List (List Char)}
    (h1 : ∀ s ∈ segs, s ≠ []) (h2 : ∀ s ∈ segs, ∀ c ∈ s, c ≠ '/') :
    splitSegs (joinSegs segs) = segs := by
  induction segs with
  | nil => rfl
  | cons s rest ih =>
    cases rest with
    | nil =>
      rw [joinSegs_one]
      exact splitSegs_single (h1 s (by simp)) (h2 s (by simp))
    | cons s1 r1 =>
      rw [joinSegs_cons_cons]
      rw [splitSegs_append (h1 s (by simp)) (h2 s (by simp))]
      rw [ih (fun a ha => h1 a (by simp [ha])) (fun a ha => h2 a (by simp [ha]))]

theorem mem_joinSegs {c : Char} {segs : List (List Char)} (h : c ∈ joinSegs segs) :
    c = '/' ∨ ∃ s ∈ segs, c ∈ s := by
  induction segs with
  | nil => simp [joinSegs] at h
  | cons s rest ih =>
    cases rest with
    | nil =>
      simp only [joinSegs] at h
      exact Or.inr ⟨s, by simp, h⟩
    | cons s1 r1 =>
      simp only [joinSegs] at h
      rcases List.mem_append.mp h with h1 | h1
      · exact Or.inr ⟨s, by simp, h1⟩
      · rcases List.mem_cons.mp h1 with h2 | h2
        · exact Or.inl h2
        · rcases ih h2 with h3 | ⟨s2, hs2, hc2⟩
          · exact Or.inl h3
          · exact Or.inr ⟨s2, by simp [hs2], hc2⟩

theorem joinSegs_shape {segs : List (List Char)} (h1 : ∀ s ∈ segs, s ≠ [])
    (h2 : ∀ s ∈ segs, ∀ c ∈ s, c ≠ '/') :
    joinSegs segs = [] ∨ ∃ c t, joinSegs segs = c :: t ∧ c ≠ '/' := by
  cases segs with
  | nil => exact Or.inl rfl
  | cons s rest =>
    cases hs : s with
    | nil => exact absurd hs (h1 s (by simp))
    | cons c s' =>
      have hcc : c ≠ '/' := h2 s (by simp) c (by simp [hs])
      cases rest with
      | nil => exact Or.inr ⟨c, s', by simp [joinSegs, hs], hcc⟩
      | cons s1 r1 =>
        exact Or.inr ⟨c, s' ++ '/' :: joinSegs (s1 :: r1), by simp [joinSegs, hs], hcc⟩

theorem mem_normSegs {ab : Bool} {s : List Char} :
    ∀ {input acc : List (List Char)},
      s ∈ normSegs ab acc input → s ∈ acc ∨ s ∈ input ∨ s = dotDotSeg := by
  intro input
  induction input with
  | nil =>
    intro acc h
    simp only [normSegs] at h
    rw [List.mem_reverse] at h
    exact Or.inl h
  | cons x rest ih =>
    intro acc h
    simp only [normSegs] at h
    by_cases hx : x = dotSeg
    · rw [if_pos hx] at h
      rcases ih h with h1 | h1 | h1
      · exact Or.inl h1
      · exact Or.inr (Or.inl (by simp [h1]))
      · exact Or.inr (Or.inr h1)
    · rw [if_neg hx] at h
      by_cases hx2 : x = dotDotSeg
      · rw [if_pos hx2] at h
        cases acc with
        | nil =>
          simp only at h
          by_cases hab : ab = true
          · rw [if_pos hab] at h
            rcases ih h with h1 | h1 | h1
            · simp at h1
            · exact Or.inr (Or.inl (by simp [h1]))
            · exact Or.inr (Or.inr h1)
          · rw [if_neg hab] at h
            rcases ih h with h1 | h1 | h1
            · simp at h1
              exact Or.inr (Or.inr h1)
            · exact Or.inr (Or.inl (by simp [h1]))
            · exact Or.inr (Or.inr h1)
        | cons y acc2 =>
          simp only at h
          rcases ih h with h1 | h1 | h1
          · exact Or.inl (by simp [h1])
          · exact Or.inr (Or.inl (by simp [h1]))
          · exact Or.inr (Or.inr h1)
      · rw [if_neg hx2] at h
        rcases ih h with h1 | h1 | h1
        · rcases List.mem_cons.mp h1 with h2 | h2
          · exact Or.inr (Or.inl (by simp [h2]))
          · exact Or.inl h2
        · exact Or.inr (Or.inl (by simp [h1]))
        · exact Or.inr (Or.inr h1)

theorem normSegs_clean {ab : Bool} :
    ∀ {input acc : List (List Char)},
      (∀ s ∈ input, s ≠ dotSeg ∧ s ≠ dotDotSeg) →
      normSegs ab acc input = acc.reverse ++ input := by
  intro input
  induction input with
  | nil =>
    intro acc _
    simp [normSegs]
  | cons x rest ih =>
    intro acc h
    have hx := h x (by simp)
    simp only [normSegs, if_neg hx.1, if_neg hx.2]
    rw [ih (fun s hs => h s (by simp [hs]))]
    simp

theorem normSegs_shape {ab : Bool} :
    ∀ {input acc c d : List (List Char)},
      acc = c ++ d → (∀ s ∈ c, s ≠ dotSeg ∧ s ≠ dotDotSeg) →
      (d = [] ∨ (d = [dotDotSeg] ∧ ab = false)) →
      ∃ pre post, normSegs ab acc input = pre ++ post ∧
        (pre = [] ∨ (pre = [dotDotSeg] ∧ ab = false)) ∧
        ∀ s ∈ post, s ≠ dotSeg ∧ s ≠ dotDotSeg := by
  intro input
  induction input with
  | nil =>
    intro acc c d hacc hc hd
    refine ⟨d, c.reverse, ?_, hd, ?_⟩
    · subst hacc
      simp only [normSegs, List.reverse_append]
      rcases hd with h | ⟨h, _⟩ <;> rw [h] <;> simp
    · intro s hs
      rw [List.mem_reverse] at hs
      exact hc s hs
  | cons x rest ih =>
    intro acc c d hacc hc hd
    simp only [normSegs]
    by_cases hx : x = dotSeg
    · rw [if_pos hx]
      exact ih hacc hc hd
    · rw [if_neg hx]
      by_cases hx2 : x = dotDotSeg
      · rw [if_pos hx2]
        cases acc with
        | nil =>
          simp only
          by_cases hab : ab = true
          · rw [if_pos hab]
            exact ih (c := []) (d := []) rfl (by simp) (Or.inl rfl)
          · rw [if_neg hab]
            exact ih (c := []) (d := [dotDotSeg]) rfl (by simp)
              (Or.inr ⟨rfl, by simpa using hab⟩)
        | cons y acc2 =>
          simp only
          cases c with
          | nil =>
            simp only [List.nil_append] at hacc
            rcases hd with h | ⟨h, _⟩
            · rw [h] at hacc; simp at hacc
            · rw [h] at hacc
              simp at hacc
              exact ih (c := []) (d := []) (by simp [hacc.2]) (by simp) (Or.inl rfl)
          | cons z c' =>
            simp only [List.cons_append] at hacc
            injection hacc with hy hacc2
            exact ih hacc2 (fun s hs => hc s (by simp [hs])) hd
      · rw [if_neg hx2]
        refine ih (c := x :: c) (d := d) (by simp [hacc]) ?_ hd
        intro s hs
        rcases List.mem_cons.mp hs with h | h
        · rw [h]; exact ⟨hx, hx2⟩
        · exact hc s h

theorem normSegs_self {ab : Bool} {pre post : List (List Char)}
    (hpre : pre = [] ∨ (pre = [dotDotSeg] ∧ ab = false))
    (hpost : ∀ s ∈ post, s ≠ dotSeg ∧ s ≠ dotDotSeg) :
    normSegs ab [] (pre ++ post) = pre ++ post := by
  rcases hpre with h | ⟨h, hab⟩
  · subst h
    simpa using normSegs_clean hpost
  · subst h
    subst hab
    have step : normSegs false [] (dotDotSeg :: post) = normSegs false [dotDotSeg] post := by
      simp [normSegs, dotSeg, dotDotSeg]
    simp only [List.cons_append, List.nil_append]
    rw [step, normSegs_clean hpost]
    simp

theorem absPre_chars {x : List Char} (c : Char) (h : c ∈ absPre x) : c = '/' := by
  unfold absPre at h
  split_ifs at h <;> simp at h <;> simp [h]

theorem absPre_shapes (x : List Char) :
    absPre x = [] ∨ absPre x = ['/'] ∨ absPre x = ['/', '/'] := by
  unfold absPre
  split_ifs <;> simp

theorem absPre_of_ne {c : Char} {t : List Char} (hc : c ≠ '/') : absPre (c :: t) = [] := by
  unfold absPre
  rw [if_neg (by simp [hc])]

theorem absPre_append_join {p j : List Char}
    (hp : p = [] ∨ p = ['/'] ∨ p = ['/', '/'])
    (hj : j = [] ∨ ∃ c t, j = c :: t ∧ c ≠ '/') :
    absPre (p ++ j) = p := by
  rcases hp with h | h | h <;> subst h
  · rcases hj with h | ⟨c, t, h, hc⟩
    · subst h; rfl
    · subst h
      exact absPre_of_ne hc
  · rcases hj with h | ⟨c, t, h, hc⟩
    · subst h; rfl
    · subst h
      show absPre ('/' :: c :: t) = ['/']
      unfold absPre
      simp [hc]
  · rcases hj with h | ⟨c, t, h, hc⟩
    · subst h; rfl
    · subst h
      show absPre ('/' :: '/' :: c :: t) = ['/', '/']
      unfold absPre
      simp [hc]

theorem splitSegs_pre {p : List Char} (j : List Char)
    (hp : p = [] ∨ p = ['/'] ∨ p = ['/', '/']) :
    splitSegs (p ++ j) = splitSegs j := by
  rcases hp with h | h | h <;> subst h
  · rfl
  · exact splitSegs_slash j
  · show splitSegs ('/' :: '/' :: j) = splitSegs j
    rw [splitSegs_slash, splitSegs_slash]

theorem normOut_segs_facts (l : List Char) :
    ∀ s ∈ normSegs (!(absPre (slashify l)).isEmpty) [] (splitSegs (slashify l)),
      s ≠ [] ∧ (∀ c ∈ s, c ≠ '/') ∧ (∀ c ∈ s, c ≠ '\\') := by
  intro s hs
  rcases mem_normSegs hs with h | h | h
  · simp at h
  · exact ⟨splitSegs_nonnil s h, fun c hc => (splitSegs_chars s h c hc).1,
      fun c hc => slashify_no_bs (splitSegs_chars s h c hc).2⟩
  · subst h
    exact ⟨by decide, by decide, by decide⟩

theorem normalize_idem (l : List Char) : normalize (normalize l) = normalize l := by
  have hfacts := normOut_segs_facts l
  have hne : ∀ s ∈ normSegs (!(absPre (slashify l)).isEmpty) [] (splitSegs (slashify l)),
      s ≠ [] := fun s hs => (hfacts s hs).1
  have hnoslash : ∀ s ∈ normSegs (!(absPre (slashify l)).isEmpty) [] (splitSegs (slashify l)),
      ∀ c ∈ s, c ≠ '/' := fun s hs => (hfacts s hs).2.1
  have hnobs : ∀ s ∈ normSegs (!(absPre (slashify l)).isEmpty) [] (splitSegs (slashify l)),
      ∀ c ∈ s, c ≠ '\\' := fun s hs => (hfacts s hs).2.2
  have hpshape := absPre_shapes (slashify l)
  have hjshape := joinSegs_shape hne hnoslash
  have hout : normalize l = absPre (slashify l) ++
      joinSegs (normSegs (!(absPre (slashify l)).isEmpty) [] (splitSegs (slashify l))) := rfl
  have h1 : slashify (normalize l) = normalize l := by
    apply slashify_eq_self
    intro c hc
    rw [hout] at hc
    rcases List.mem_append.mp hc with h | h
    · rw [absPre_chars c h]; decide
    · rcases mem_joinSegs h with h2 | ⟨s, hs, hcs⟩
      · rw [h2]; decide
      · exact hnobs s hs c hcs
  have h2 : absPre (normalize l) = absPre (slashify l) := by
    rw [hout]
    exact absPre_append_join hpshape hjshape
  have h3 : splitSegs (normalize l) =
      normSegs (!(absPre (slashify l)).isEmpty) [] (splitSegs (slashify l)) := by
    rw [hout, splitSegs_pre _ hpshape]
    exact splitSegs_joinSegs hne hnoslash
  obtain ⟨pre, post, hps, hpre, hpost⟩ :=
    @normSegs_shape (!(absPre (slashify l)).isEmpty) (splitSegs (slashify l)) [] [] [] rfl
      (by simp) (Or.inl rfl)
  have h4 : normSegs (!(absPre (slashify l)).isEmpty) []
      (normSegs (!(absPre (slashify l)).isEmpty) [] (splitSegs (slashify l))) =
      normSegs (!(absPre (slashify l)).isEmpty) [] (splitSegs (slashify l)) := by
    rw [hps]
    exact normSegs_self hpre hpost
  calc normalize (normalize l)
      = absPre (slashify (normalize l)) ++
        joinSegs (normSegs (!(absPre (slashify (normalize l))).isEmpty) []
          (splitSegs (slashify (normalize l)))) := rfl
    _ = normalize l := by rw [h1, h2, h3, h4, ← hout]

theorem mem_normalize {c : Char} {l : List Char} (h : c ∈ normalize l) :
    c = '/' ∨ c = '.' ∨ c ∈ slashify l := by
  have hout : normalize l = absPre (slashify l) ++
      joinSegs (normSegs (!(absPre (slashify l)).isEmpty) [] (splitSegs (slashify l))) := rfl
  rw [hout] at h
  rcases List.mem_append.mp h with h1 | h1
  · exact Or.inl (absPre_chars c h1)
  · rcases mem_joinSegs h1 with h2 | ⟨s, hs, hcs⟩
    · exact Or.inl h2
    · rcases mem_normSegs hs with h3 | h3 | h3
      · simp at h3
      · exact Or.inr (Or.inr (splitSegs_chars s h3 c hcs).2)
      · subst h3
        simp [dotDotSeg] at hcs
        exact Or.inr (Or.inl hcs)

theorem normalize_no_bs {l : List Char} : '\\' ∉ normalize l := by
  intro h
  rcases mem_normalize h with h1 | h1 | h1
  · exact absurd h1 (by decide)
  · exact absurd h1 (by decide)
  · exact slashify_no_bs h1 rfl

theorem normalize_no_char {l : List Char} {c : Char} (hc1 : c ≠ '/') (hc2 : c ≠ '.')
    (hc3 : c ∉ l) : c ∉ normalize l := by
  intro h
  rcases mem_normalize h with h1 | h1 | h1
  · exact hc1 h1
  · exact hc2 h1
  · rcases mem_slashify h1 with h2 | h2
    · exact hc1 h2
    · exact hc3 h2

/-! ### Scanner lemmas -/

theorem contLen_chars : ∀ {l : List Char} {k : Nat}, k < contLen l →
    ∃ c, l[k]? = some c ∧ isIdentCont c = true := by
  intro l
  induction l with
  | nil => intro k h; simp [contLen] at h
  | cons c rest ih =>
    intro k h
    simp only [contLen] at h
    by_cases hc : isIdentCont c = true
    · rw [if_pos hc] at h
      cases k with
      | zero => exact ⟨c, by simp, hc⟩
      | succ k =>
        obtain ⟨c2, h1, h2⟩ := ih (k := k) (by omega)
        exact ⟨c2, by simpa using h1, h2⟩
    · rw [if_neg hc] at h
      omega

theorem identLen_chars {l : List Char} {k : Nat} (h : k < identLen l) :
    ∃ c, l[k]? = some c ∧ isIdentCont c = true := by
  cases l with
  | nil => simp [identLen] at h
  | cons c rest =>
    simp only [identLen] at h
    by_cases hc : isIdentStart c = true
    · rw [if_pos hc] at h
      cases k with
      | zero =>
        refine ⟨c, by simp, ?_⟩
        simp only [isIdentStart, Bool.or_eq_true] at hc
        simp only [isIdentCont, Bool.or_eq_true]
        tauto
      | succ k =>
        obtain ⟨c2, h1, h2⟩ := contLen_chars (l := rest) (k := k) (by omega)
        exact ⟨c2, by simpa using h1, h2⟩
    · rw [if_neg hc] at h
      omega

theorem identCont_ne {c : Char} (h : isIdentCont c = true) : c ≠ '$' ∧ c ≠ '\x7b' := by
  constructor <;> intro he <;> subst he <;> exact absurd h (by decide)

theorem scanGo_pos : ∀ {fuel : Nat} {i : Nat} {l : List Char} {it : Item},
    it ∈ scanGo fuel i l →
    ∃ j, itStart it = i + j ∧ l[j]? = some '$' ∧ l[j + 1]? = some '\x7b' := by
  intro fuel
  induction fuel with
  | zero => intro i l it h; simp [scanGo] at h
  | succ fuel ih =>
    intro i l it h
    cases l with
    | nil => simp [scanGo] at h
    | cons c l2 =>
      cases l2 with
      | nil => simp [scanGo] at h
      | cons d rest =>
        rw [scanGo] at h
        by_cases hcd : c = '$' ∧ d = '\x7b'
        · rw [if_pos hcd] at h
          by_cases hwf : 0 < identLen rest ∧ rest[identLen rest]? = some '\x7d'
          · rw [if_pos hwf] at h
            rcases List.mem_cons.mp h with h1 | h1
            · exact ⟨0, by simp [h1, itStart], by simp [hcd.1], by simp [hcd.2]⟩
            · obtain ⟨j, hj, hch1, hch2⟩ := ih h1
              refine ⟨identLen rest + 3 + j, by omega, ?_, ?_⟩
              · rw [show identLen rest + 3 + j = ((identLen rest + 1 + j) + 1) + 1 by omega]
                simp only [List.getElem?_cons_succ]
                rw [← List.getElem?_drop]
                exact hch1
              · rw [show identLen rest + 3 + j + 1 = ((identLen rest + 1 + (j + 1)) + 1) + 1 by
                  omega]
                simp only [List.getElem?_cons_succ]
                rw [← List.getElem?_drop]
                exact hch2
          · rw [if_neg hwf] at h
            rcases List.mem_cons.mp h with h1 | h1
            · exact ⟨0, by simp [h1, itStart], by simp [hcd.1], by simp [hcd.2]⟩
            · obtain ⟨j, hj, hch1, hch2⟩ := ih h1
              exact ⟨j + 1, by omega, by simpa using hch1, by simpa using hch2⟩
        · rw [if_neg hcd] at h
          obtain ⟨j, hj, hch1, hch2⟩ := ih h
          exact ⟨j + 1, by omega, by simpa using hch1, by simpa using hch2⟩

theorem scanGo_start_ge {fuel i : Nat} {l : List Char} {it : Item}
    (h : it ∈ scanGo fuel i l) : i ≤ itStart it := by
  obtain ⟨j, hj, _, _⟩ := scanGo_pos h
  omega

theorem scanGo_start_lt_end : ∀ {fuel : Nat} {i : Nat} {l : List Char} {it : Item},
    it ∈ scanGo fuel i l → itStart it < itEnd it := by
  intro fuel
  induction fuel with
  | zero => intro i l it h; simp [scanGo] at h
  | succ fuel ih =>
    intro i l it h
    cases l with
    | nil => simp [scanGo] at h
    | cons c l2 =>
      cases l2 with
      | nil => simp [scanGo] at h
      | cons d rest =>
        rw [scanGo] at h
        by_cases hcd : c = '$' ∧ d = '\x7b'
        · rw [if_pos hcd] at h
          by_cases hwf : 0 < identLen rest ∧ rest[identLen rest]? = some '\x7d'
          · rw [if_pos hwf] at h
            rcases List.mem_cons.mp h with h1 | h1
            · rw [h1]; simp only [itStart, itEnd]; omega
            · exact ih h1
          · rw [if_neg hwf] at h
            rcases List.mem_cons.mp h with h1 | h1
            · rw [h1]; simp only [itStart, itEnd]; omega
            · exact ih h1
        · rw [if_neg hcd] at h
          exact ih h

theorem scanGo_after_brace {fuel i : Nat} {rest : List Char} {it : Item}
    (hit : it ∈ scanGo fuel i ('\x7b' :: rest)) : i + identLen rest + 1 ≤ itStart it := by
  obtain ⟨j, hj, hch1, hch2⟩ := scanGo_pos hit
  rcases Nat.lt_or_ge j (identLen rest + 1) with hlt | hge
  · exfalso
    cases j with
    | zero =>
      have : '\x7b' = '$' := by simpa using hch1
      exact absurd this (by decide)
    | succ j0 =>
      simp only [List.getElem?_cons_succ] at hch1
      obtain ⟨c2, hc2, hcont⟩ := identLen_chars (l := rest) (k := j0) (by omega)
      rw [hc2] at hch1
      exact (identCont_ne hcont).1 (by simpa using hch1)
  · omega

theorem scanGo_pairwise : ∀ {fuel i : Nat} {l : List Char},
    List.Pairwise (fun a b => itEnd a ≤ itStart b) (scanGo fuel i l) := by
  intro fuel
  induction fuel with
  | zero => intro i l; simp [scanGo]
  | succ fuel ih =>
    intro i l
    cases l with
    | nil => simp [scanGo]
    | cons c l2 =>
      cases l2 with
      | nil => simp [scanGo]
      | cons d rest =>
        rw [scanGo]
        by_cases hcd : c = '$' ∧ d = '\x7b'
        · rw [if_pos hcd]
          by_cases hwf : 0 < identLen rest ∧ rest[identLen rest]? = some '\x7d'
          · rw [if_pos hwf]
            refine List.Pairwise.cons (fun it hit => ?_) ih
            have := scanGo_start_ge hit
            simp only [itEnd]
            omega
          · rw [if_neg hwf]
            refine List.Pairwise.cons (fun it hit => ?_) ih
            rw [hcd.2] at hit
            have := scanGo_after_brace hit
            simp only [itEnd]
            omega
        · rw [if_neg hcd]
          exact ih

theorem scanGo_progress : ∀ {fuel : Nat} {i j : Nat} {l : List Char},
    l.length < fuel → l[j]? = some '$' → l[j + 1]? = some '\x7b' →
    ∃ it ∈ scanGo fuel i l, itStart it = i + j := by
  intro fuel
  induction fuel with
  | zero => intro i j l hlen _ _; omega
  | succ fuel ih =>
    intro i j l hlen h1 h2
    cases l with
    | nil => simp at h1
    | cons c l2 =>
      cases l2 with
      | nil => rcases j with _ | j <;> simp at h2
      | cons d rest =>
        rw [scanGo]
        cases j with
        | zero =>
          have h1' : c = '$' := by simpa using h1
          have h2' : d = '\x7b' := by simpa using h2
          rw [if_pos ⟨h1', h2'⟩]
          by_cases hwf : 0 < identLen rest ∧ rest[identLen rest]? = some '\x7d'
          · rw [if_pos hwf]
            exact ⟨_, List.mem_cons_self _ _, by simp [itStart]⟩
          · rw [if_neg hwf]
            exact ⟨_, List.mem_cons_self _ _, by simp [itStart]⟩
        | succ j =>
          simp only [List.getElem?_cons_succ] at h1 h2
          have hlen2 : (d :: rest).length < fuel := by
            simp only [List.length_cons] at hlen ⊢
            omega
          by_cases hcd : c = '$' ∧ d = '\x7b'
          · rw [if_pos hcd]
            by_cases hwf : 0 < identLen rest ∧ rest[identLen rest]? = some '\x7d'
            · rw [if_pos hwf]
              have hjge : identLen rest + 2 ≤ j := by
                rcases Nat.lt_or_ge j (identLen rest + 2) with hlt | hge
                · exfalso
                  cases j with
                  | zero =>
                    have hd : d = '$' := by simpa using h1
                    rw [hcd.2] at hd
                    exact absurd hd (by decide)
                  | succ j0 =>
                    simp only [List.getElem?_cons_succ] at h1
                    rcases Nat.lt_or_ge j0 (identLen rest) with hlt2 | hge2
                    · obtain ⟨c2, hc2, hcont⟩ := identLen_chars (l := rest) (k := j0) hlt2
                      rw [hc2] at h1
                      exact (identCont_ne hcont).1 (by simpa using h1)
                    · have hj0 : j0 = identLen rest := by omega
                      rw [hj0, hwf.2] at h1
                      exact absurd (by simpa using h1 : '\x7d' = '$') (by decide)
                · exact hge
              obtain ⟨j1, rfl⟩ : ∃ j1, j = j1 + 1 := ⟨j - 1, by omega⟩
              simp only [List.getElem?_cons_succ] at h1
              have hdl : (rest.drop (identLen rest + 1)).length < fuel := by
                simp only [List.length_cons, List.length_drop] at hlen ⊢
                omega
              have hx1 : (rest.drop (identLen rest + 1))[j1 - (identLen rest + 1)]? =
                  some '$' := by
                rw [List.getElem?_drop,
                  show identLen rest + 1 + (j1 - (identLen rest + 1)) = j1 by omega]
                exact h1
              have hx2 : (rest.drop (identLen rest + 1))[j1 - (identLen rest + 1) + 1]? =
                  some '\x7b' := by
                rw [List.getElem?_drop,
                  show identLen rest + 1 + (j1 - (identLen rest + 1) + 1) = j1 + 1 by omega]
                exact h2
              obtain ⟨it, hit, hst⟩ := ih hdl hx1 hx2
              refine ⟨it, List.mem_cons_of_mem _ hit, ?_⟩
              rw [hst]
              omega
            · rw [if_neg hwf]
              obtain ⟨it, hit, hst⟩ :=
                ih hlen2 h1 (by rw [List.getElem?_cons_succ]; exact h2)
              exact ⟨it, List.mem_cons_of_mem _ hit, by rw [hst]; omega⟩
          · rw [if_neg hcd]
            obtain ⟨it, hit, hst⟩ :=
              ih hlen2 h1 (by rw [List.getElem?_cons_succ]; exact h2)
            exact ⟨it, hit, by rw [hst]; omega⟩

theorem scanGo_no_db : ∀ {fuel i : Nat} {l : List Char}, hasDollarBrace l = false →
    scanGo fuel i l = [] := by
  intro fuel
  induction fuel with
  | zero => intro i l _; rfl
  | succ fuel ih =>
    intro i l h
    cases l with
    | nil => rfl
    | cons c l2 =>
      cases l2 with
      | nil => rfl
      | cons d rest =>
        rw [show hasDollarBrace (c :: d :: rest) =
            ((c = '$' && (d :: rest).head? = some '\x7b') || hasDollarBrace (d :: rest))
          from rfl] at h
        simp only [Bool.or_eq_false_iff, Bool.and_eq_false_iff,
          decide_eq_false_iff_not] at h
        rw [scanGo, if_neg ?hcond]
        · exact ih h.2
        case hcond =>
          rintro ⟨hc, hd⟩
          rcases h.1 with h1 | h1
          · exact h1 hc
          · apply h1
            simp [hd]

/-! ### Token-building lemmas -/

theorem extLeft_le (buf : List Char) : ∀ a : Nat, extLeft buf a ≤ a := by
  intro a
  induction a with
  | zero => exact Nat.le_refl 0
  | succ a ih =>
    rw [extLeft]
    cases hb : buf[a]? with
    | none => simp
    | some c =>
      simp only
      by_cases hc : isPathRun c = true
      · rw [if_pos hc]; omega
      · rw [if_neg hc]

theorem extLeft_pr (buf : List Char) : ∀ a : Nat, PR buf (extLeft buf a) a := by
  intro a
  induction a with
  | zero => intro j h1 h2; omega
  | succ a ih =>
    rw [extLeft]
    cases hb : buf[a]? with
    | none =>
      simp only
      intro j h1 h2
      omega
    | some c =>
      simp only
      by_cases hc : isPathRun c = true
      · rw [if_pos hc]
        intro j h1 h2
        rcases Nat.lt_or_ge j a with h3 | h3
        · exact ih j h1 h3
        · have hja : j = a := by omega
          subst hja
          exact ⟨c, hb, hc⟩
      · rw [if_neg hc]
        intro j h1 h2
        omega

theorem extLeft_eq_or_pathrun (buf : List Char) (a : Nat) :
    extLeft buf a = a ∨ ∃ c, buf[extLeft buf a]? = some c ∧ isPathRun c = true := by
  induction a with
  | zero => exact Or.inl rfl
  | succ a ih =>
    rw [extLeft]
    cases hb : buf[a]? with
    | none => exact Or.inl rfl
    | some c =>
      simp only
      by_cases hc : isPathRun c = true
      · rw [if_pos hc]
        rcases ih with h | h
        · right; rw [h]; exact ⟨c, hb, hc⟩
        · right; exact h
      · rw [if_neg hc]
        exact Or.inl rfl

theorem runLen_chars : ∀ {l : List Char} {k : Nat}, k < runLen l →
    ∃ c, l[k]? = some c ∧ isPathRun c = true := by
  intro l
  induction l with
  | nil => intro k h; simp [runLen] at h
  | cons c rest ih =>
    intro k h
    simp only [runLen] at h
    by_cases hc : isPathRun c = true
    · rw [if_pos hc] at h
      cases k with
      | zero => exact ⟨c, by simp, hc⟩
      | succ k =>
        obtain ⟨c2, h1, h2⟩ := ih (k := k) (by omega)
        exact ⟨c2, by simpa using h1, h2⟩
    · rw [if_neg hc] at h
      omega

theorem extRight_ge (buf : List Char) (b : Nat) : b ≤ extRight buf b :=
  Nat.le_add_right b _

theorem extRight_pr (buf : List Char) (b : Nat) : PR buf b (extRight buf b) := by
  intro j h1 h2
  have hk : j - b < runLen (buf.drop b) := by
    simp only [extRight] at h2
    omega
  obtain ⟨c, hc, hpr⟩ := runLen_chars hk
  rw [List.getElem?_drop, show b + (j - b) = j by omega] at hc
  exact ⟨c, hc, hpr⟩

theorem buildToks_inv {buf : List Char} : ∀ {phs : List Placeholder},
    List.Pairwise (fun p q => p.endOff ≤ q.startOff) phs →
    (∀ p ∈ phs, p.startOff < p.endOff) →
    (∀ t ∈ buildToks buf phs,
      t.phs ≠ [] ∧ t.startOff ≤ t.endOff ∧ gapsOK buf t.startOff t.endOff t.phs ∧
      (∀ p ∈ t.phs, p ∈ phs ∧ t.startOff ≤ p.startOff ∧ p.endOff ≤ t.endOff) ∧
      t.startOff = extLeft buf ((t.phs.headD ⟨"", 0, 0⟩).startOff)) ∧
    List.Pairwise (fun t u => t.endOff < u.startOff) (buildToks buf phs) := by
  intro phs
  induction phs with
  | nil =>
    intro _ _
    exact ⟨by simp [buildToks], by simp [buildToks]⟩
  | cons p rest ih =>
    intro hpw hlt
    have hpw' := hpw.of_cons
    have hlt' : ∀ q ∈ rest, q.startOff < q.endOff := fun q hq => hlt q (by simp [hq])
    have hprel : ∀ q ∈ rest, p.endOff ≤ q.startOff := fun q hq =>
      List.rel_of_pairwise_cons hpw hq
    have hplt : p.startOff < p.endOff := hlt p (by simp)
    obtain ⟨ihmem, ihpw⟩ := ih hpw' hlt'
    cases hbt : buildToks buf rest with
    | nil =>
      have heq : buildToks buf (p :: rest) =
          [⟨extLeft buf p.startOff, extRight buf p.endOff, [p]⟩] := by
        rw [buildToks, hbt]
      rw [heq]
      refine ⟨?_, by simp⟩
      intro t ht
      simp only [List.mem_singleton] at ht
      subst ht
      refine ⟨by simp, ?_, ?_, ?_, rfl⟩
      · have h1 := extLeft_le buf p.startOff
        have h2 := extRight_ge buf p.endOff
        simp only
        omega
      · simp only [gapsOK]
        exact ⟨extLeft_pr buf p.startOff, extRight_pr buf p.endOff⟩
      · intro q hq
        simp only [List.mem_singleton] at hq
        subst hq
        exact ⟨by simp, extLeft_le _ _, extRight_ge _ _⟩
    | cons t ts =>
      obtain ⟨htne, htse, htgaps, htprov, hthead⟩ := ihmem t (hbt ▸ List.mem_cons_self t ts)
      by_cases hm : t.startOff ≤ extRight buf p.endOff
      · have heq : buildToks buf (p :: rest) =
            ⟨extLeft buf p.startOff, t.endOff, p :: t.phs⟩ :: ts := by
          rw [buildToks, hbt]
          simp only [if_pos hm]
        rw [heq]
        cases htp : t.phs with
        | nil => exact absurd htp htne
        | cons q qs =>
          have hq : q ∈ rest := (htprov q (htp ▸ List.mem_cons_self q qs)).1
          have hqlt : q.startOff < q.endOff := hlt' q hq
          have hqb := htprov q (htp ▸ List.mem_cons_self q qs)
          have hpq : p.endOff ≤ q.startOff := hprel q hq
          rw [htp] at htgaps
          simp only [gapsOK] at htgaps
          constructor
          · intro u hu
            rcases List.mem_cons.mp hu with hu1 | hu1
            · subst hu1
              refine ⟨by simp, ?_, ?_, ?_, rfl⟩
              · have h1 := extLeft_le buf p.startOff
                simp only
                omega
              · simp only [gapsOK]
                refine ⟨extLeft_pr buf p.startOff, ?_, htgaps.2⟩
                intro j h1 h2
                rcases Nat.lt_or_ge j (extRight buf p.endOff) with h3 | h3
                · exact extRight_pr buf p.endOff j h1 h3
                · exact htgaps.1 j (by omega) h2
              · intro x hx
                rcases List.mem_cons.mp hx with hx1 | hx1
                · subst hx1
                  refine ⟨by simp, extLeft_le _ _, ?_⟩
                  simp only
                  omega
                · have hxr := htprov x (by rw [htp]; exact hx1)
                  have hpx : p.endOff ≤ x.startOff := hprel x hxr.1
                  have h1 := extLeft_le buf p.startOff
                  exact ⟨by simp [hxr.1], by simp only; omega, by simp only; exact hxr.2.2⟩
            · obtain ⟨h1, h2, h3, h4, h5⟩ := ihmem u (hbt ▸ List.mem_cons_of_mem t hu1)
              exact ⟨h1, h2, h3, fun x hx => ⟨by simp [(h4 x hx).1], (h4 x hx).2.1,
                (h4 x hx).2.2⟩, h5⟩
          · have hpw2 := hbt ▸ ihpw
            refine List.Pairwise.cons (fun u hu => ?_) hpw2.of_cons
            have := List.rel_of_pairwise_cons hpw2 hu
            simpa using this
      · have heq : buildToks buf (p :: rest) =
            ⟨extLeft buf p.startOff, extRight buf p.endOff, [p]⟩ :: t :: ts := by
          rw [buildToks, hbt]
          simp only [if_neg hm]
        rw [heq]
        constructor
        · intro u hu
          rcases List.mem_cons.mp hu with hu1 | hu1
          · subst hu1
            refine ⟨by simp, ?_, ?_, ?_, rfl⟩
            · have h1 := extLeft_le buf p.startOff
              have h2 := extRight_ge buf p.endOff
              simp only
              omega
            · simp only [gapsOK]
              exact ⟨extLeft_pr buf p.startOff, extRight_pr buf p.endOff⟩
            · intro q hq
              simp only [List.mem_singleton] at hq
              subst hq
              exact ⟨by simp, extLeft_le _ _, extRight_ge _ _⟩
          · obtain ⟨h1, h2, h3, h4, h5⟩ := ihmem u (hbt ▸ hu1)
            exact ⟨h1, h2, h3, fun x hx => ⟨by simp [(h4 x hx).1], (h4 x hx).2.1,
              (h4 x hx).2.2⟩, h5⟩
        · have hpw2 := hbt ▸ ihpw
          refine List.Pairwise.cons (fun u hu => ?_) hpw2
          rcases List.mem_cons.mp hu with hu1 | hu1
          · subst hu1
            simp only
            omega
          · obtain ⟨_, hu2, _, _, _⟩ := ihmem u (hbt ▸ List.mem_cons_of_mem t hu1)
            have := List.rel_of_pairwise_cons hpw2 hu1
            simp only
            omega

/-! ### Substitution lemmas -/

theorem pr_slice {buf : List Char} {a b : Nat} (h : PR buf a b) :
    ∀ c ∈ slice buf a b, isPathRun c = true := by
  intro c hc
  obtain ⟨k, hk⟩ := List.mem_iff_getElem?.mp hc
  simp only [slice] at hk
  have hkb : k < b - a := by
    by_contra hge
    rw [List.getElem?_eq_none (by simp [List.length_take]; omega)] at hk
    exact Option.noConfusion hk
  rw [List.getElem?_take_of_lt hkb, List.getElem?_drop] at hk
  obtain ⟨c2, hc2, hpr⟩ := h (a + k) (by omega) (by omega)
  rw [hk] at hc2
  obtain rfl : c = c2 := by injection hc2
  exact hpr

theorem lookupEnv_mem {env : Env} {n v : String} (h : lookupEnv env n = some v) :
    ∃ p ∈ env, p.2 = v := by
  induction env with
  | nil => simp [lookupEnv] at h
  | cons q rest ih =>
    obtain ⟨qn, qv⟩ := q
    simp only [lookupEnv] at h
    by_cases hq : qn = n
    · rw [if_pos hq] at h
      exact ⟨(qn, qv), by simp, by injection h⟩
    · rw [if_neg hq] at h
      obtain ⟨p, hp, hv⟩ := ih h
      exact ⟨p, by simp [hp], hv⟩

theorem substFrom_resolved_chars {env : Env} {buf : List Char} {tokEnd : Nat} :
    ∀ {phs : List Placeholder} {pos : Nat},
      gapsOK buf pos tokEnd phs →
      (substFrom env buf tokEnd pos phs).2 = Status.Resolved →
      ∀ c ∈ (substFrom env buf tokEnd pos phs).1,
        isPathRun c = true ∨ ∃ n v, lookupEnv env n = some v ∧ c ∈ v.data := by
  intro phs
  induction phs with
  | nil =>
    intro pos hg _ c hc
    simp only [substFrom] at hc
    simp only [gapsOK] at hg
    exact Or.inl (pr_slice hg c hc)
  | cons p rest ih =>
    intro pos hg hst c hc
    simp only [gapsOK] at hg
    simp only [substFrom] at hst hc
    cases hl : lookupEnv env p.name with
    | none =>
      rw [hl] at hst
      simp at hst
    | some v =>
      rw [hl] at hst hc
      simp only at hst hc
      rcases List.mem_append.mp hc with h1 | h1
      · rcases List.mem_append.mp h1 with h2 | h2
        · exact Or.inl (pr_slice hg.1 c h2)
        · exact Or.inr ⟨p.name, v, hl, h2⟩
      · exact ih hg.2 hst c h1

theorem substFrom_miss {env : Env} {buf : List Char} {tokEnd : Nat} :
    ∀ {pre : List Placeholder} {q : Placeholder} {post : List Placeholder} {pos : Nat},
      (∀ p ∈ pre, lookupEnv env p.name ≠ none) →
      lookupEnv env q.name = none →
      substFrom env buf tokEnd pos (pre ++ q :: post) =
        (expandPre env buf pos pre ++ slice buf (preEnd pos pre) tokEnd,
          Status.UnresolvedVariable q.name) := by
  intro pre
  induction pre with
  | nil =>
    intro q post pos _ hq
    simp only [List.nil_append, substFrom, hq, expandPre, preEnd]
  | cons p pre ih =>
    intro q post pos hpre hq
    have hp := hpre p (by simp)
    cases hl : lookupEnv env p.name with
    | none => exact absurd hl hp
    | some v =>
      have heq : (p :: pre) ++ q :: post = p :: (pre ++ q :: post) := rfl
      rw [heq]
      simp only [substFrom, hl]
      rw [ih (fun x hx => hpre x (by simp [hx])) hq]
      simp [expandPre, preEnd, hl, List.append_assoc]

theorem first_miss {env : Env} : ∀ {phs : List Placeholder},
    (∃ p ∈ phs, lookupEnv env p.name = none) →
    ∃ pre q post, phs = pre ++ q :: post ∧
      (∀ p ∈ pre, lookupEnv env p.name ≠ none) ∧ lookupEnv env q.name = none := by
  intro phs
  induction phs with
  | nil => intro h; simp at h
  | cons p rest ih =>
    intro h
    cases hl : lookupEnv env p.name with
    | none => exact ⟨[], p, rest, by simp, by simp, hl⟩
    | some v =>
      have h2 : ∃ x ∈ rest, lookupEnv env x.name = none := by
        obtain ⟨x, hx, hxn⟩ := h
        rcases List.mem_cons.mp hx with h3 | h3
        · subst h3; rw [hl] at hxn; exact absurd hxn (by simp)
        · exact ⟨x, h3, hxn⟩
      obtain ⟨pre, q, post, heq, hpre, hq⟩ := ih h2
      refine ⟨p :: pre, q, post, by simp [heq], ?_, hq⟩
      intro x hx
      rcases List.mem_cons.mp hx with h3 | h3
      · subst h3; simp [hl]
      · exact hpre x h3

/-! ### Collector lemmas -/

theorem mkRef_span (env : Env) (bid : Nat) (buf : List Char) (t : Tok) :
    (mkRef env bid buf t).bufId = bid ∧ (mkRef env bid buf t).spanStart = t.startOff ∧
      (mkRef env bid buf t).spanEnd = t.endOff := by
  unfold mkRef
  cases hsub : substFrom env buf t.endOff t.startOff t.phs with
  | mk s st =>
    cases st
    case Resolved =>
      simp only
      split_ifs <;> simp
    all_goals exact ⟨rfl, rfl, rfl⟩

theorem mkRef_resolved {env : Env} {bid : Nat} {buf : List Char} {t : Tok}
    (h : (mkRef env bid buf t).status = Status.Resolved) :
    (substFrom env buf t.endOff t.startOff t.phs).2 = Status.Resolved ∧
    (mkRef env bid buf t).resolved =
      normalize (substFrom env buf t.endOff t.startOff t.phs).1 := by
  unfold mkRef at h ⊢
  cases hsub : substFrom env buf t.endOff t.startOff t.phs with
  | mk s st =>
    rw [hsub] at h
    cases st
    case Resolved =>
      simp only at h ⊢
      split_ifs at h ⊢ with hp
      · simp
    case UnresolvedVariable n => simp at h
    case MalformedPlaceholder => simp at h
    case NotAPath => simp at h

theorem mkRef_of_subst {env : Env} {bid : Nat} {buf : List Char} {t : Tok}
    {s : List Char} {n : String}
    (h : substFrom env buf t.endOff t.startOff t.phs = (s, Status.UnresolvedVariable n)) :
    mkRef env bid buf t = ⟨bid, t.startOff, t.endOff, slice buf t.startOff t.endOff, s,
      Status.UnresolvedVariable n⟩ := by
  unfold mkRef
  rw [h]

theorem phsOf_mem {items : List Item} {p : Placeholder} :
    p ∈ phsOf items ↔ Item.ph p ∈ items := by
  simp only [phsOf, List.mem_filterMap]
  constructor
  · rintro ⟨it, hit, heq⟩
    cases it with
    | ph q =>
      simp only at heq
      obtain rfl : q = p := by injection heq
      exact hit
    | bad s e => simp at heq
  · intro h
    exact ⟨Item.ph p, h, rfl⟩

theorem badsOf_mem {items : List Item} {se : Nat × Nat} :
    se ∈ badsOf items ↔ Item.bad se.1 se.2 ∈ items := by
  simp only [badsOf, List.mem_filterMap]
  constructor
  · rintro ⟨it, hit, heq⟩
    cases it with
    | ph q => simp at heq
    | bad s e =>
      simp only at heq
      obtain rfl : (s, e) = se := by injection heq
      exact hit
  · intro h
    exact ⟨Item.bad se.1 se.2, h, rfl⟩

theorem items_start_pairwise {buf : List Char} :
    List.Pairwise (fun a b => itStart a < itStart b) (scanP buf) := by
  have h1 : List.Pairwise (fun a b => itEnd a ≤ itStart b) (scanP buf) := scanGo_pairwise
  refine h1.imp_of_mem (fun ha _ hr => ?_)
  have := scanGo_start_lt_end ha
  omega

theorem items_start_ne {buf : List Char} {a b : Item} (ha : a ∈ scanP buf)
    (hb : b ∈ scanP buf) (hne : a ≠ b) : itStart a ≠ itStart b := by
  have h2 : List.Pairwise (fun a b => itStart a ≠ itStart b) (scanP buf) :=
    items_start_pairwise.imp Nat.ne_of_lt
  exact List.Pairwise.forall (fun x y h => h.symm) h2 ha hb hne

theorem phsOf_scanP_pairwise (buf : List Char) :
    List.Pairwise (fun p q => p.endOff ≤ q.startOff) (phsOf (scanP buf)) := by
  have h1 : List.Pairwise (fun a b => itEnd a ≤ itStart b) (scanP buf) := scanGo_pairwise
  unfold phsOf
  rw [List.pairwise_filterMap]
  refine h1.imp fun {a b} hr => ?_
  intro x hx y hy
  cases a with
  | ph p =>
    cases b with
    | ph q =>
      simp only [Option.mem_def, Option.some.injEq] at hx hy
      subst hx; subst hy
      exact hr
    | bad s e => simp at hy
  | bad s e => simp at hx

theorem phsOf_scanP_lt (buf : List Char) :
    ∀ p ∈ phsOf (scanP buf), p.startOff < p.endOff := by
  intro p hp
  have := scanGo_start_lt_end (phsOf_mem.mp hp)
  simpa [itStart, itEnd] using this

theorem bad_char {buf : List Char} {s e : Nat} (h : Item.bad s e ∈ scanP buf) :
    buf[s]? = some '$' := by
  obtain ⟨j, hj, hch, _⟩ := scanGo_pos h
  simp only [itStart] at hj
  subst hj
  simpa using hch

theorem collectBuf_bufId {env : Env} {bid : Nat} {buf : List Char} :
    ∀ r ∈ collectBuf env bid buf, r.bufId = bid := by
  intro r hr
  unfold collectBuf at hr
  rcases List.mem_append.mp hr with h | h
  · obtain ⟨hmem, _⟩ := List.mem_filter.mp h
    obtain ⟨t, _, rfl⟩ := List.mem_map.mp hmem
    exact (mkRef_span env bid buf t).1
  · obtain ⟨se, _, rfl⟩ := List.mem_map.mp h
    rfl

theorem collectBuf_pairwise {env : Env} {bid : Nat} {buf : List Char} :
    List.Pairwise (fun a b => a.spanStart ≠ b.spanStart) (collectBuf env bid buf) := by
  unfold collectBuf
  rw [List.pairwise_append]
  obtain ⟨hmem, hpw⟩ := @buildToks_inv buf _ (phsOf_scanP_pairwise buf)
    (phsOf_scanP_lt buf)
  refine ⟨?_, ?_, ?_⟩
  · apply List.Pairwise.filter
    rw [List.pairwise_map]
    refine hpw.imp_of_mem (fun ht hu hr => ?_)
    intro heq
    rw [(mkRef_span env bid buf _).2.1, (mkRef_span env bid buf _).2.1] at heq
    have hse := (hmem _ ht).2.1
    omega
  · have hb1 : List.Pairwise (fun x y => x.1 < y.1) (badsOf (scanP buf)) := by
      unfold badsOf
      rw [List.pairwise_filterMap]
      refine items_start_pairwise.imp (fun {a b} hr => ?_)
      intro x hx y hy
      cases a with
      | ph p => simp at hx
      | bad s e =>
        cases b with
        | ph q => simp at hy
        | bad s2 e2 =>
          simp only [Option.mem_def, Option.some.injEq] at hx hy
          subst hx
          subst hy
          simpa [itStart] using hr
    rw [List.pairwise_map]
    exact hb1.imp (fun hr => Nat.ne_of_lt hr)
  · intro a ha b hb
    obtain ⟨hamem, _⟩ := List.mem_filter.mp ha
    obtain ⟨t, ht, rfl⟩ := List.mem_map.mp hamem
    obtain ⟨se, hse, rfl⟩ := List.mem_map.mp hb
    show (mkRef env bid buf t).spanStart ≠ se.1
    rw [(mkRef_span env bid buf t).2.1]
    obtain ⟨htne, htse2, _, htprov, hthead⟩ := hmem t ht
    have hbaditem : Item.bad se.1 se.2 ∈ scanP buf := badsOf_mem.mp hse
    have hbadchar : buf[se.1]? = some '$' := bad_char hbaditem
    rcases extLeft_eq_or_pathrun buf ((t.phs.headD ⟨"", 0, 0⟩).startOff) with hcase |
      ⟨c, hc, hpr⟩
    · rw [hthead, hcase]
      cases htp : t.phs with
      | nil => exact absurd htp htne
      | cons q qs =>
        have hq : q ∈ phsOf (scanP buf) :=
          (htprov q (by rw [htp]; exact List.mem_cons_self q qs)).1
        have hqitem : Item.ph q ∈ scanP buf := phsOf_mem.mp hq
        have hne := items_start_ne hqitem hbaditem (by simp)
        simpa [itStart, htp] using hne
    · intro heq
      rw [hthead] at heq
      rw [heq, hbadchar] at hc
      obtain rfl : '$' = c := by injection hc
      exact absurd hpr (by decide)

theorem collectAux_bufId {env : Env} : ∀ {bufs : List (List Char)} {bid : Nat},
    ∀ r ∈ collectAux env bid bufs, bid ≤ r.bufId := by
  intro bufs
  induction bufs with
  | nil => intro bid r hr; simp [collectAux] at hr
  | cons b rest ih =>
    intro bid r hr
    simp only [collectAux] at hr
    rcases List.mem_append.mp hr with h | h
    · rw [collectBuf_bufId r h]
    · have := ih r h
      omega

theorem collectAux_pairwise {env : Env} : ∀ {bufs : List (List Char)} {bid : Nat},
    List.Pairwise bufStartNe (collectAux env bid bufs) := by
  intro bufs
  induction bufs with
  | nil => intro bid; simp [collectAux]
  | cons b rest ih =>
    intro bid
    simp only [collectAux]
    rw [List.pairwise_append]
    refine ⟨?_, ih, ?_⟩
    · refine collectBuf_pairwise.imp_of_mem (fun ha hb hr => ?_)
      unfold bufStartNe
      rintro ⟨_, h2⟩
      exact hr h2
    · intro a ha b hb
      have h1 := collectBuf_bufId a ha
      have h2 := collectAux_bufId b hb
      unfold bufStartNe
      rintro ⟨h3, _⟩
      omega

theorem sortRefs_perm (l : List Reference) : List.Perm (sortRefs l) l :=
  List.perm_insertionSort keyLe l

theorem sortRefs_sorted (l : List Reference) : List.Pairwise keyLe (sortRefs l) :=
  List.sorted_insertionSort keyLe l

theorem bufStartNe_symm : Symmetric bufStartNe := by
  intro a b h
  unfold bufStartNe at *
  rintro ⟨h1, h2⟩
  exact h ⟨h1.symm, h2.symm⟩

theorem dedupGo_id : ∀ {l : List Reference} {prev : Reference},
    List.Chain' (fun a b => refKey a ≠ refKey b) (prev :: l) → dedupGo prev l = l := by
  intro l
  induction l with
  | nil => intro prev _; rfl
  | cons s rest ih =>
    intro prev h
    obtain ⟨h1, h2⟩ := List.chain'_cons.mp h
    simp only [dedupGo, if_neg h1]
    rw [ih h2]

theorem dedupRefs_id {l : List Reference}
    (h : List.Chain' (fun a b => refKey a ≠ refKey b) l) : dedupRefs l = l := by
  cases l with
  | nil => rfl
  | cons r rest =>
    simp only [dedupRefs]
    rw [dedupGo_id h]

theorem refKey_ne_of_bufStartNe {a b : Reference} (h : bufStartNe a b) :
    refKey a ≠ refKey b := by
  intro heq
  unfold refKey at heq
  unfold bufStartNe at h
  exact h ⟨congrArg Prod.fst heq, congrArg (fun x => x.2.1) heq⟩

theorem collect_eq_sorted (bufs : List (List Char)) (env : Env) :
    collect bufs env = sortRefs (collectAux env 0 bufs) := by
  unfold collect
  apply dedupRefs_id
  have hne : List.Pairwise bufStartNe (sortRefs (collectAux env 0 bufs)) :=
    ((sortRefs_perm _).pairwise_iff (fun h => bufStartNe_symm h)).mpr collectAux_pairwise
  exact (hne.imp refKey_ne_of_bufStartNe).chain'

theorem keyLe_ne_lt {a b : Reference} (h1 : keyLe a b) (h2 : bufStartNe a b) :
    bufStartLt a b := by
  simp only [keyLe, keyLeB, Bool.or_eq_true, Bool.and_eq_true, decide_eq_true_eq] at h1
  unfold bufStartNe at h2
  unfold bufStartLt
  omega

theorem collect_pairwise (bufs : List (List Char)) (env : Env) :
    List.Pairwise bufStartLt (collect bufs env) := by
  rw [collect_eq_sorted]
  have hne : List.Pairwise bufStartNe (sortRefs (collectAux env 0 bufs)) :=
    ((sortRefs_perm _).pairwise_iff (fun h => bufStartNe_symm h)).mpr collectAux_pairwise
  have hle := sortRefs_sorted (collectAux env 0 bufs)
  exact (hle.and hne).imp (fun h => keyLe_ne_lt h.1 h.2)

theorem mem_collect_iff {r : Reference} {bufs : List (List Char)} {env : Env} :
    r ∈ collect bufs env ↔ r ∈ collectAux env 0 bufs := by
  rw [collect_eq_sorted]
  exact (sortRefs_perm _).mem_iff

theorem no_dollar_no_db : ∀ {l : List Char}, '$' ∉ l → hasDollarBrace l = false := by
  intro l
  induction l with
  | nil => intro _; rfl
  | cons c rest ih =>
    intro h
    have hc : c ≠ '$' := fun he => h (by simp [he])
    have hr : '$' ∉ rest := fun he => h (by simp [he])
    rw [show hasDollarBrace (c :: rest) =
        ((c = '$' && rest.head? = some '\x7b') || hasDollarBrace rest) from rfl]
    simp [hc, ih hr]

theorem collectBuf_resolved_clean {env : Env} {bid : Nat} {buf : List Char}
    (henv : EnvClean env) :
    ∀ r ∈ collectBuf env bid buf, r.status = Status.Resolved →
      '$' ∉ r.resolved ∧ '\x7b' ∉ r.resolved ∧ '\\' ∉ r.resolved := by
  intro r hr hst
  unfold collectBuf at hr
  rcases List.mem_append.mp hr with h | h
  · obtain ⟨hmem2, _⟩ := List.mem_filter.mp h
    obtain ⟨t, ht, rfl⟩ := List.mem_map.mp hmem2
    obtain ⟨hsub, hres⟩ := mkRef_resolved hst
    obtain ⟨hm, _⟩ := @buildToks_inv buf _ (phsOf_scanP_pairwise buf)
      (phsOf_scanP_lt buf)
    obtain ⟨_, _, hgaps, _, _⟩ := hm t ht
    have hchars := substFrom_resolved_chars hgaps hsub
    have hnod : '$' ∉ (substFrom env buf t.endOff t.startOff t.phs).1 := by
      intro hmem3
      rcases hchars '$' hmem3 with h1 | ⟨n, v, hl, hv⟩
      · exact absurd h1 (by decide)
      · obtain ⟨p, hp, hpv⟩ := lookupEnv_mem hl
        exact (henv p hp '$' (by rw [hpv]; exact hv)).1 rfl
    have hnob : '\x7b' ∉ (substFrom env buf t.endOff t.startOff t.phs).1 := by
      intro hmem3
      rcases hchars '\x7b' hmem3 with h1 | ⟨n, v, hl, hv⟩
      · exact absurd h1 (by decide)
      · obtain ⟨p, hp, hpv⟩ := lookupEnv_mem hl
        exact (henv p hp '\x7b' (by rw [hpv]; exact hv)).2 rfl
    rw [hres]
    exact ⟨normalize_no_char (by decide) (by decide) hnod,
      normalize_no_char (by decide) (by decide) hnob, normalize_no_bs⟩
  · obtain ⟨se, hse, rfl⟩ := List.mem_map.mp h
    simp [badRef] at hst

theorem collectAux_mem_src {env : Env} : ∀ {bufs : List (List Char)} {bid : Nat}
    {r : Reference}, r ∈ collectAux env bid bufs → ∃ b bid2, r ∈ collectBuf env bid2 b := by
  intro bufs
  induction bufs with
  | nil => intro bid r hr; simp [collectAux] at hr
  | cons b rest ih =>
    intro bid r hr
    simp only [collectAux] at hr
    rcases List.mem_append.mp hr with h | h
    · exact ⟨b, bid, h⟩
    · exact ih h

theorem collect_resolved_clean {bufs : List (List Char)} {env : Env} (henv : EnvClean env) :
    ∀ r ∈ collect bufs env, r.status = Status.Resolved →
      hasDollarBrace r.resolved = false ∧ '\\' ∉ r.resolved := by
  intro r hr hst
  rw [mem_collect_iff] at hr
  obtain ⟨b, bid2, hmem⟩ := collectAux_mem_src hr
  obtain ⟨h1, _, h3⟩ := collectBuf_resolved_clean henv r hmem hst
  exact ⟨no_dollar_no_db h1, h3⟩

theorem collectBuf_empty {env : Env} {bid : Nat} {buf : List Char}
    (h : hasDollarBrace buf = false) : collectBuf env bid buf = [] := by
  unfold collectBuf
  rw [show scanP buf = [] from scanGo_no_db h]
  simp [phsOf, badsOf, buildToks]

theorem collectAux_empty {env : Env} : ∀ {bufs : List (List Char)} {bid : Nat},
    (∀ b ∈ bufs, hasDollarBrace b = false) → collectAux env bid bufs = [] := by
  intro bufs
  induction bufs with
  | nil => intro bid _; rfl
  | cons b rest ih =>
    intro bid h
    simp only [collectAux]
    rw [collectBuf_empty (h b (by simp)), ih (fun x hx => h x (by simp [hx]))]
    rfl

theorem collect_empty {bufs : List (List Char)} {env : Env}
    (h : ∀ b ∈ bufs, hasDollarBrace b = false) : collect bufs env = [] := by
  rw [collect_eq_sorted, collectAux_empty h]
  rfl

theorem unresolved_first_miss {env : Env} {buf : List Char} {t : Tok}
    (ht : t ∈ buildToks buf (phsOf (scanP buf)))
    (hmiss : ∃ p ∈ t.phs, lookupEnv env p.name = none) :
    ∃ pre q post, t.phs = pre ++ q :: post ∧
      (∀ p ∈ pre, lookupEnv env p.name ≠ none) ∧
      lookupEnv env q.name = none ∧
      mkRef env 0 buf t = ⟨0, t.startOff, t.endOff, slice buf t.startOff t.endOff,
        expandPre env buf t.startOff pre ++ slice buf (preEnd t.startOff pre) t.endOff,
        Status.UnresolvedVariable q.name⟩ ∧
      mkRef env 0 buf t ∈ collect [buf] env := by
  obtain ⟨pre, q, post, heq, hpre, hq⟩ := first_miss hmiss
  have hsub := @substFrom_miss env buf t.endOff pre q post t.startOff hpre hq
  rw [← heq] at hsub
  have href := @mkRef_of_subst env 0 buf t _ _ hsub
  refine ⟨pre, q, post, heq, hpre, hq, href, ?_⟩
  rw [mem_collect_iff]
  show mkRef env 0 buf t ∈ collectAux env 0 [buf]
  simp only [collectAux]
  refine List.mem_append.mpr (Or.inl ?_)
  unfold collectBuf
  refine List.mem_append.mpr (Or.inl ?_)
  rw [List.mem_filter]
  refine ⟨List.mem_map.mpr ⟨t, ht, rfl⟩, ?_⟩
  rw [href]
  simp

theorem scanP_progress {buf : List Char} {j : Nat} (h1 : buf[j]? = some '$')
    (h2 : buf[j + 1]? = some '\x7b') : ∃ it ∈ scanP buf, itStart it = j := by
  obtain ⟨it, hit, hst⟩ :=
    @scanGo_progress (buf.length + 1) 0 j buf (by omega) h1 h2
  exact ⟨it, hit, by omega⟩

/-! ### Claim theorems -/

/-- Claim C1 (amended): for the single input buffer `"${PROJECT_ROOT}/config.txt\n"`
under an environment binding `PROJECT_ROOT` to `/home/u/proj`, `collect` returns
exactly one reference whose source span is `[0, 26)` (the token
`${PROJECT_ROOT}/config.txt` is 26 bytes long, not 25), whose resolved path is
`/home/u/proj/config.txt`, and whose status is `Resolved`. -/
theorem c1_single_resolved_ref :
    collect [Fixtures.bufC1] Fixtures.envC1 =
      [⟨0, 0, 26, "${PROJECT_ROOT}/config.txt".data, "/home/u/proj/config.txt".data,
        Status.Resolved⟩] := by
  decide

/-- Claim C1 counterexample: the claimed span `[0, 25)` is wrong; no run of
`collect` on that buffer yields a single reference with span end 25. -/
theorem c1_cex_span25 :
    ¬ ∃ r : Reference, collect [Fixtures.bufC1] Fixtures.envC1 = [r] ∧
      r.spanStart = 0 ∧ r.spanEnd = 25 ∧
      r.resolved = "/home/u/proj/config.txt".data ∧ r.status = Status.Resolved := by
  rintro ⟨r, hr, _, h25, _, _⟩
  have hcol : collect [Fixtures.bufC1] Fixtures.envC1 = [Fixtures.refC1] := by decide
  rw [hcol] at hr
  injection hr with h1 _
  subst h1
  exact absurd h25 (by decide)

/-- Claim C2 (amended): for every buffer set and environment the collector
output is sorted strictly ascending by `(buffer_id, source_span.start)` and
contains no two entries with identical `(buffer_id, source_span)`; identical
spans may repeat across distinct buffers, so the span-only uniqueness in the
original claim must be qualified by the buffer id. -/
theorem c2_sorted_strict : ∀ (bufs : List (List Char)) (env : Env),
    List.Pairwise bufStartLt (collect bufs env) ∧
    List.Pairwise (fun a b => ¬(a.bufId = b.bufId ∧ a.spanStart = b.spanStart ∧
      a.spanEnd = b.spanEnd)) (collect bufs env) := by
  intro bufs env
  have h := collect_pairwise bufs env
  refine ⟨h, h.imp ?_⟩
  intro a b hab
  unfold bufStartLt at hab
  rintro ⟨h1, h2, _⟩
  omega

/-- Claim C2 counterexample: two identical buffers produce two references
with identical source spans, so the collector output is not free of
duplicate spans when spans are compared without the buffer id. -/
theorem c2_cex_dup_spans :
    ¬ List.Pairwise (fun a b => ¬(a.spanStart = b.spanStart ∧ a.spanEnd = b.spanEnd))
      (collect [Fixtures.bufDup, Fixtures.bufDup] Fixtures.envDup) := by
  decide

/-- Claim C3 (amended): provided no environment value contains a `$` or `{`
character, every `Resolved` reference's `resolved_path` contains no `${`
substring and no backslash.  Without that proviso the single-pass
substitution contract lets a value such as `${B}` survive verbatim in a
`Resolved` path. -/
theorem c3_resolved_clean : ∀ (bufs : List (List Char)) (env : Env), EnvClean env →
    ∀ r ∈ collect bufs env, r.status = Status.Resolved →
      hasDollarBrace r.resolved = false ∧ '\\' ∉ r.resolved :=
  fun _ _ henv r hr hst => collect_resolved_clean henv r hr hst

/-- Claim C3 witness: the amended theorem applied to scenario 1. -/
theorem c3_resolved_clean_witness :
    EnvClean Fixtures.envC1 ∧
      (hasDollarBrace Fixtures.refC1.resolved = false ∧ '\\' ∉ Fixtures.refC1.resolved) :=
  ⟨by decide, c3_resolved_clean [Fixtures.bufC1] Fixtures.envC1 (by decide) Fixtures.refC1
    (by decide) (by decide)⟩

/-- Claim C3 counterexample: with `A` bound to the value `${B}`, the token
`${A}/x` resolves to `${B}/x` with status `Resolved`, which still contains
a `${` substring. -/
theorem c3_cex_value_placeholder :
    ¬ (∀ r ∈ collect [Fixtures.bufDup] Fixtures.envLoop, r.status = Status.Resolved →
      hasDollarBrace r.resolved = false) := by
  decide

/-- Claim C4: whenever a raw token contains a placeholder whose name is
unbound, the reference carries `UnresolvedVariable` with the first such
name, and its resolved text is the raw text with the placeholders before
the miss expanded and everything from the miss on kept verbatim; in
particular `"${BUILD_DIR}/bin/output"` under the empty environment yields
exactly one reference with status `UnresolvedVariable "BUILD_DIR"` whose
resolved field equals the raw text. -/
theorem c4_unresolved_first_miss :
    (∀ (env : Env) (buf : List Char) (t : Tok),
      t ∈ buildToks buf (phsOf (scanP buf)) →
      (∃ p ∈ t.phs, lookupEnv env p.name = none) →
      ∃ pre q post, t.phs = pre ++ q :: post ∧
        (∀ p ∈ pre, lookupEnv env p.name ≠ none) ∧
        lookupEnv env q.name = none ∧
        mkRef env 0 buf t = ⟨0, t.startOff, t.endOff, slice buf t.startOff t.endOff,
          expandPre env buf t.startOff pre ++ slice buf (preEnd t.startOff pre) t.endOff,
          Status.UnresolvedVariable q.name⟩ ∧
        mkRef env 0 buf t ∈ collect [buf] env) ∧
    collect [Fixtures.bufC4] [] =
      [⟨0, 0, 23, Fixtures.bufC4, Fixtures.bufC4, Status.UnresolvedVariable "BUILD_DIR"⟩] :=
  ⟨fun _ _ _ ht hm => unresolved_first_miss ht hm, by decide⟩

/-- Claim C4 witness: the first-miss description instantiated on the
`${BUILD_DIR}/bin/output` token under the empty environment. -/
theorem c4_unresolved_witness :
    (Fixtures.tokC4 ∈ buildToks Fixtures.bufC4 (phsOf (scanP Fixtures.bufC4)) ∧
      ∃ p ∈ Fixtures.tokC4.phs, lookupEnv [] p.name = none) ∧
    (∃ pre q post, Fixtures.tokC4.phs = pre ++ q :: post ∧
      (∀ p ∈ pre, lookupEnv [] p.name ≠ none) ∧
      lookupEnv [] q.name = none ∧
      mkRef [] 0 Fixtures.bufC4 Fixtures.tokC4 = ⟨0, Fixtures.tokC4.startOff,
        Fixtures.tokC4.endOff,
        slice Fixtures.bufC4 Fixtures.tokC4.startOff Fixtures.tokC4.endOff,
        expandPre [] Fixtures.bufC4 Fixtures.tokC4.startOff pre ++
          slice Fixtures.bufC4 (preEnd Fixtures.tokC4.startOff pre) Fixtures.tokC4.endOff,
        Status.UnresolvedVariable q.name⟩ ∧
      mkRef [] 0 Fixtures.bufC4 Fixtures.tokC4 ∈ collect [Fixtures.bufC4] []) :=
  ⟨⟨by decide, by decide⟩,
    c4_unresolved_first_miss.1 [] Fixtures.bufC4 Fixtures.tokC4 (by decide) (by decide)⟩

/-- Claim C5: the scanner is total and never aborts: every `${` occurrence
in any buffer is accounted for by an emission starting at that position;
in particular `"${BAD"` yields exactly one `MalformedPlaceholder` reference
covering the `${BAD` span `[0, 5)` and nothing else. -/
theorem c5_scanner_total :
    (∀ (buf : List Char) (j : Nat), buf[j]? = some '$' → buf[j + 1]? = some '\x7b' →
      ∃ it ∈ scanP buf, itStart it = j) ∧
    collect [Fixtures.bufC5] [] =
      [⟨0, 0, 5, Fixtures.bufC5, Fixtures.bufC5, Status.MalformedPlaceholder⟩] :=
  ⟨fun _ _ h1 h2 => scanP_progress h1 h2, by decide⟩

/-- Claim C5 witness: the progress property instantiated at the `${` of
the `${BAD` buffer. -/
theorem c5_scanner_total_witness :
    (Fixtures.bufC5[0]? = some '$' ∧ Fixtures.bufC5[0 + 1]? = some '\x7b') ∧
      ∃ it ∈ scanP Fixtures.bufC5, itStart it = 0 :=
  ⟨⟨by decide, by decide⟩, c5_scanner_total.1 Fixtures.bufC5 0 (by decide) (by decide)⟩

/-- Claim C6: for every buffer set containing no `${` occurrence and every
environment, `collect` returns the empty list. -/
theorem c6_no_placeholder_empty : ∀ (bufs : List (List Char)) (env : Env),
    (∀ b ∈ bufs, hasDollarBrace b = false) → collect bufs env = [] :=
  fun _ _ h => collect_empty h

/-- Claim C6 witness: a plain buffer without `${` collects to the empty list. -/
theorem c6_no_placeholder_empty_witness :
    (∀ b ∈ ["hello world".data], hasDollarBrace b = false) ∧
      collect ["hello world".data] [] = [] :=
  ⟨by decide, c6_no_placeholder_empty ["hello world".data] [] (by decide)⟩

/-- Claim C7: the path normalizer is idempotent: normalizing twice yields
the same string as normalizing once, for every path string. -/
theorem c7_normalize_idem : ∀ s : String, normalize (normalize s.data) = normalize s.data :=
  fun s => normalize_idem s.data

/-- Claim C8: `"${THIRD_PARTY}/boost/include/boost.hpp"` with `THIRD_PARTY`
bound to `C:\libs` resolves to `C:/libs/boost/include/boost.hpp` and is
classified absolute by the drive-letter rule. -/
theorem c8_third_party_absolute :
    collect [Fixtures.bufC8] Fixtures.envC8 =
      [⟨0, 0, 38, Fixtures.bufC8, "C:/libs/boost/include/boost.hpp".data,
        Status.Resolved⟩] ∧
    isAbsolute "C:/libs/boost/include/boost.hpp".data = true := by
  exact ⟨by decide, by decide⟩

/-- Claim C9: `utils::getConfigPaths` is a pure constant returning exactly
the three fixture paths in order. -/
theorem c9_getConfigPaths_constant :
    Fixtures.getConfigPaths = ["${PROJECT_ROOT}/config.xml", "${SRC_DIR}/config.ini",
      "${BUILD_DIR}/generated/config.h"] ∧ Fixtures.getConfigPaths.length = 3 :=
  ⟨rfl, rfl⟩

/-- Claim C10: `get_project_root` returns the literal unsubstituted string
`${PROJECT_ROOT}`; the fixture performs no substitution, so the scanner
still finds the placeholder verbatim at span `[0, 15)`. -/
theorem c10_get_project_root_literal :
    Fixtures.get_project_root = "${PROJECT_ROOT}" ∧
      scanP Fixtures.get_project_root.data = [Item.ph ⟨"PROJECT_ROOT", 0, 15⟩] :=
  ⟨rfl, by decide⟩

end CMakeResolver
